import Mathlib

/-!
Shallow embedding of `ternary/plotting.py` (matplotlib ternary plotting
utility).  Real numbers arising in the source are all of the form
`q₁ + q₂·√3` with `q₁ q₂ : ℚ`, so we model scalars exactly by the
computable quadratic field `Rt3` below.  Python exceptions are modelled
by an explicit error type and `Except` results.
-/

namespace Ternary

/-- Exact model of the subfield ℚ(√3) of ℝ: `⟨r, s⟩` stands for `r + s·√3`. -/
structure Rt3 where
  r : ℚ
  s : ℚ
deriving DecidableEq, Repr

instance : Add Rt3 := ⟨fun x y => ⟨x.r + y.r, x.s + y.s⟩⟩
instance : Neg Rt3 := ⟨fun x => ⟨-x.r, -x.s⟩⟩
instance : Sub Rt3 := ⟨fun x y => ⟨x.r - y.r, x.s - y.s⟩⟩
instance : Mul Rt3 := ⟨fun x y => ⟨x.r * y.r + 3 * x.s * y.s, x.r * y.s + x.s * y.r⟩⟩
instance : Inv Rt3 :=
  ⟨fun x => ⟨x.r / (x.r * x.r - 3 * x.s * x.s), -x.s / (x.r * x.r - 3 * x.s * x.s)⟩⟩
instance : Div Rt3 := ⟨fun x y => x * y⁻¹⟩
instance (n : ℕ) : OfNat Rt3 n := ⟨⟨(n : ℚ), 0⟩⟩

/-- Embedding of a rational number into `Rt3`. -/
def Rt3.ofRat (q : ℚ) : Rt3 := ⟨q, 0⟩

/-- The element √3 of `Rt3`. -/
def sqrt3 : Rt3 := ⟨0, 1⟩

@[simp] theorem Rt3.add_def (x y : Rt3) : x + y = ⟨x.r + y.r, x.s + y.s⟩ := rfl

@[simp] theorem Rt3.neg_def (x : Rt3) : -x = ⟨-x.r, -x.s⟩ := rfl

@[simp] theorem Rt3.sub_def (x y : Rt3) : x - y = ⟨x.r - y.r, x.s - y.s⟩ := rfl

@[simp] theorem Rt3.mul_def (x y : Rt3) :
    x * y = ⟨x.r * y.r + 3 * x.s * y.s, x.r * y.s + x.s * y.r⟩ := rfl

@[simp] theorem Rt3.inv_def (x : Rt3) :
    x⁻¹ = ⟨x.r / (x.r * x.r - 3 * x.s * x.s), -x.s / (x.r * x.r - 3 * x.s * x.s)⟩ := rfl

@[simp] theorem Rt3.div_def (x y : Rt3) : x / y = x * y⁻¹ := rfl

@[simp] theorem Rt3.ofNat_def (n : ℕ) : (OfNat.ofNat n : Rt3) = ⟨(n : ℚ), 0⟩ := rfl

@[simp] theorem Rt3.ofRat_def (q : ℚ) : Rt3.ofRat q = ⟨q, 0⟩ := rfl

/-- Source constant `SQRT3OVER2 = math.sqrt(3) / 2.`, i.e. √3/2. -/
def SQRT3OVER2 : Rt3 := ⟨0, 1/2⟩

/-- A Cartesian point of the projected plane. -/
abbrev Pt := Rt3 × Rt3

/-- Componentwise division of a point (numpy array) by a scalar, as in the
source expression dividing `_i_vec` by two. -/
instance : HDiv Pt Rt3 Pt := ⟨fun p c => (p.1 / c, p.2 / c)⟩

@[simp] theorem Pt.hdiv_def (p : Pt) (c : Rt3) : p / c = (p.1 / c, p.2 / c) := rfl

/-- Python exceptions that the modelled code can raise. -/
inductive PyErr where
  | typeError
  | indexError
  | valueError
  | zeroDivisionError
deriving DecidableEq, Repr

/-- A Python value passed to the projection functions: either a number or a
sequence of values. -/
inductive PyVal where
  | num : Rt3 → PyVal
  | seq : List PyVal → PyVal

/-- Python subscription `p[i]`: a `TypeError` on a number (not subscriptable),
an `IndexError` past the end of a sequence. -/
def getItem : PyVal → ℕ → Except PyErr PyVal
  | .num _, _ => .error .typeError
  | .seq l, i =>
    match l.get? i with
    | some v => .ok v
    | none => .error .indexError

instance {ε α : Type} [DecidableEq ε] [DecidableEq α] : DecidableEq (Except ε α) := fun x y =>
  match x, y with
  | .ok a, .ok b => if h : a = b then .isTrue (by rw [h]) else .isFalse (by simp [h])
  | .error e, .error f => if h : e = f then .isTrue (by rw [h]) else .isFalse (by simp [h])
  | .ok _, .error _ => .isFalse (by simp)
  | .error _, .ok _ => .isFalse (by simp)

/-- Using a value as a number in the arithmetic `0.5 * (2 * b + c)`:
a sequence operand makes that expression raise a `TypeError` in Python. -/
def asNum : PyVal → Except PyErr Rt3
  | .num q => .ok q
  | .seq _ => .error .typeError

/-- Source `project_point(p)`: `a = p[0]; b = p[1]; c = p[2];
x = 0.5 * (2 * b + c); y = SQRT3OVER2 * c; return (x, y)`
(`a` is read but unused). -/
def project_point (p : PyVal) : Except PyErr Pt := do
  let _a ← getItem p 0
  let b ← getItem p 1
  let c ← getItem p 2
  let bq ← asNum b
  let cq ← asNum c
  pure (Rt3.ofRat (1/2) * (2 * bq + cq), SQRT3OVER2 * cq)

/-- Source helper `unzip(l) = zip(*l)` applied to a list of pairs. -/
def unzip (l : List Pt) : List Rt3 × List Rt3 := (l.map Prod.fst, l.map Prod.snd)

/-- Result of `project`: either a single Cartesian pair (fallback branch) or the
pair of coordinate sequences `(xs, ys)` produced by `unzip`. -/
inductive ProjResult where
  | single : Pt → ProjResult
  | seqs : List Rt3 × List Rt3 → ProjResult
deriving DecidableEq, Repr

/-- Source `project(s)`: tries `unzip(map(project_point, s))`; on a `TypeError`
or `IndexError` raised while mapping (or because `s` is not iterable) it falls
back to `project_point(s)`.  An empty sequence maps to empty coordinate
sequences without ever calling `project_point`. -/
def project (s : PyVal) : Except PyErr ProjResult :=
  match s with
  | .num _ => (project_point s).map .single
  | .seq [] => .ok (.seqs ([], []))
  | .seq l =>
    match l.mapM project_point with
    | .ok ps => .ok (.seqs (unzip ps))
    | .error _ => (project_point s).map .single

/-- Python float division, raising `ZeroDivisionError` on a zero divisor. -/
def pydiv (x y : ℚ) : Except PyErr ℚ :=
  if y = 0 then .error .zeroDivisionError else .ok (x / y)

/-- Source `normalize(xs)`: `s = float(sum(xs)); return [x / s for x in xs]`.
Each division can raise `ZeroDivisionError`; an empty list performs no
division at all. -/
def normalize (xs : List ℚ) : Except PyErr (List ℚ) :=
  let s := xs.sum
  xs.mapM (fun x => pydiv x s)

/-- Python `range(start, stop)` over the integers, as a list. -/
def pyRange (start stop : ℤ) : List ℤ :=
  (List.range (stop - start).toNat).map (fun k : ℕ => start + (k : ℤ))

/-- Source `simplex_points(steps, boundary)`: `start = 0 if boundary else 1`,
then the nested loops `for x1 in range(start, steps + (1 - start)):
for x2 in range(start, steps + (1 - start) - x1): yield (x1, x2, steps - x1 - x2)`. -/
def simplex_points (steps : ℤ) (boundary : Bool) : List (ℤ × ℤ × ℤ) :=
  let start : ℤ := if boundary then 0 else 1
  ((pyRange start (steps + (1 - start))).map (fun x1 =>
    (pyRange start (steps + (1 - start) - x1)).map (fun x2 =>
      (x1, x2, steps - x1 - x2)))).flatten

/-- An RGBA color quadruple as returned by a colormap. -/
abbrev Rgba := ℚ × ℚ × ℚ × ℚ

/-- Source `colormapper(x, a, b, cmap)`: `rgba = cmap(0) if b - a == 0 else
cmap((x - a) / float(b - a))`, then the flattened rgba array is hex-encoded by
the external `matplotlib.colors.rgb2hex`.  The colormap and the hex encoder
are external collaborators, taken as parameters. -/
def colormapper (x a b : ℚ) (cmap : ℚ → Rgba) (rgb2hex : Rgba → String) : String :=
  let rgba := if b - a = 0 then cmap 0 else cmap ((x - a) / (b - a))
  rgb2hex rgba

/-- Source `triangle_coordinates(i, j, alt)`: the ordered triangle vertices
`[(i/2.+j, i*SQRT3OVER2), (i/2.+j+1, i*SQRT3OVER2), (i/2.+j+0.5, (i+1)*SQRT3OVER2)]`
in the standard case, and
`[(i/2.+j+1, i*SQRT3OVER2), (i/2.+j+1.5, (i+1)*SQRT3OVER2), (i/2.+j+0.5, (i+1)*SQRT3OVER2)]`
in the alt case. -/
def triangle_coordinates (i j : ℤ) (alt : Bool) : List Pt :=
  if !alt then
    [(Rt3.ofRat ((i : ℚ) / 2 + j), Rt3.ofRat i * SQRT3OVER2),
     (Rt3.ofRat ((i : ℚ) / 2 + j + 1), Rt3.ofRat i * SQRT3OVER2),
     (Rt3.ofRat ((i : ℚ) / 2 + j + 1/2), Rt3.ofRat ((i : ℚ) + 1) * SQRT3OVER2)]
  else
    [(Rt3.ofRat ((i : ℚ) / 2 + j + 1), Rt3.ofRat i * SQRT3OVER2),
     (Rt3.ofRat ((i : ℚ) / 2 + j + 3/2), Rt3.ofRat ((i : ℚ) + 1) * SQRT3OVER2),
     (Rt3.ofRat ((i : ℚ) / 2 + j + 1/2), Rt3.ofRat ((i : ℚ) + 1) * SQRT3OVER2)]

/-- Source `i_j_to_x_y(i, j) = np.array([i / 2. + j, SQRT3OVER2 * i])`. -/
def i_j_to_x_y (i j : ℤ) : Pt :=
  (Rt3.ofRat ((i : ℚ) / 2 + j), SQRT3OVER2 * Rt3.ofRat i)

/-- Source `_alpha = np.array([0, 1. / np.sqrt(3)])`; note 1/√3 = (1/3)·√3. -/
def alphaVec : Pt := (Rt3.ofRat 0, ⟨0, 1/3⟩)

/-- Source `_deltaup = np.array([1. / 2., 1. / (2. * np.sqrt(3))])`; 1/(2√3) = (1/6)·√3. -/
def deltaup : Pt := (Rt3.ofRat (1/2), ⟨0, 1/6⟩)

/-- Source `_deltadown = np.array([1. / 2., - 1. / (2. * np.sqrt(3))])`. -/
def deltadown : Pt := (Rt3.ofRat (1/2), ⟨0, -(1/6)⟩)

/-- Source `_i_vec = np.array([1. / 2., np.sqrt(3) / 2.])`. -/
def i_vec : Pt := (Rt3.ofRat (1/2), ⟨0, 1/2⟩)

/-- Source `_i_vec_down = np.array([1. / 2., -np.sqrt(3) / 2.])`. -/
def i_vec_down : Pt := (Rt3.ofRat (1/2), ⟨0, -(1/2)⟩)

/-- Source `_deltaX_vec = np.array([_deltadown[0], 0])`. -/
def deltaX_vec : Pt := (deltadown.1, Rt3.ofRat 0)

/-- Source `hex_coordinates(i, j, steps)`: starts with the six hexagon vertices
around `ij = i_j_to_x_y(i, j)` and then sequentially overrides `coords` for
the three triangle edges and, last, the three corners (so corner cases take
precedence).  Each Python `if`/nested-`if` pair appears here as one
conditional reassignment. -/
def hex_coordinates (i j steps : ℤ) : List Pt :=
  let ij := i_j_to_x_y i j
  let coords0 :=
    [ij + alphaVec, ij + deltaup, ij + deltadown, ij - alphaVec, ij - deltaup, ij - deltadown]
  let coords1 :=
    if i = 0 ∧ j ≠ steps ∧ j ≠ 0 then
      [ij - deltaX_vec, ij - deltadown, ij + alphaVec, ij + deltaup, ij + deltaX_vec]
    else coords0
  let coords2 :=
    if j = 0 ∧ i ≠ steps ∧ i ≠ 0 then
      [ij + i_vec / (2 : Rt3), ij + deltaup, ij + deltadown, ij - alphaVec, ij - i_vec / (2 : Rt3)]
    else coords1
  let coords3 :=
    if i + j = steps ∧ i ≠ 0 ∧ j ≠ 0 then
      [ij + i_vec_down / (2 : Rt3), ij - alphaVec, ij - deltaup, ij - deltadown, ij - i_vec_down / (2 : Rt3)]
    else coords2
  let coords4 :=
    if i = steps ∧ j = 0 then
      [ij, ij + i_vec_down / (2 : Rt3), ij - alphaVec, ij - i_vec / (2 : Rt3)]
    else coords3
  let coords5 :=
    if i = 0 ∧ j = 0 then
      [ij, ij + i_vec / (2 : Rt3), ij + deltaup, ij + deltaX_vec]
    else coords4
  let coords6 :=
    if j = steps ∧ i = 0 then
      [ij, ij - deltaX_vec, ij - deltadown, ij - i_vec_down / (2 : Rt3)]
    else coords5
  coords6

/-- Python `min` over a collection, raising `ValueError` when it is empty. -/
def pymin (xs : List ℚ) : Except PyErr ℚ :=
  match xs with
  | [] => .error .valueError
  | x :: rest => .ok (rest.foldl min x)

/-- Python `max` over a collection, raising `ValueError` when it is empty. -/
def pymax (xs : List ℚ) : Except PyErr ℚ :=
  match xs with
  | [] => .error .valueError
  | x :: rest => .ok (rest.foldl max x)

/-- Color-domain selection step of source `heatmap(d, steps, ...)`:
`if min_max_scale is None: a = min(d.values()); b = max(d.values())
else: a = min_max_scale[0]; b = min_max_scale[1]`.  The dictionary `d` is
modelled as an association list from `(i, j)` keys to scalar values. -/
def heatmap_domain (d : List ((ℤ × ℤ) × ℚ)) (min_max_scale : Option (ℚ × ℚ)) :
    Except PyErr (ℚ × ℚ) := do
  match min_max_scale with
  | none =>
    let a ← pymin (d.map (fun kv => kv.2))
    let b ← pymax (d.map (fun kv => kv.2))
    pure (a, b)
  | some mms => pure (mms.1, mms.2)

/-- Dictionary-building step of source `plot_heatmap(func, steps, boundary, ...)`:
`d[(x1, x2)] = func(normalize([x1, x2, x3]))` for every lattice triple of
`simplex_points(steps, boundary)`; a `ZeroDivisionError` raised by
`normalize` aborts the call. -/
def plot_heatmap_d (func : List ℚ → ℚ) (steps : ℤ) (boundary : Bool) :
    Except PyErr (List ((ℤ × ℤ) × ℚ)) :=
  (simplex_points steps boundary).mapM (fun t => do
    let n ← normalize [(t.1 : ℚ), (t.2.1 : ℚ), (t.2.2 : ℚ)]
    pure ((t.1, t.2.1), func n))

/-! Helper lemmas about the `Except` monad and the embedded helpers. -/

@[simp] theorem ok_bind {α β : Type} (a : α) (f : α → Except PyErr β) :
    (Except.ok a >>= f : Except PyErr β) = f a := rfl

@[simp] theorem error_bind {α β : Type} (e : PyErr) (f : α → Except PyErr β) :
    (Except.error e >>= f : Except PyErr β) = .error e := rfl

@[simp] theorem pure_eq_ok {α : Type} (a : α) : (pure a : Except PyErr α) = .ok a := rfl

theorem mapM_pydiv_ok (l : List ℚ) (s : ℚ) (hs : s ≠ 0) :
    l.mapM (fun x => pydiv x s) = .ok (l.map (fun x => x / s)) := by
  induction l with
  | nil => rfl
  | cons x t ih =>
    rw [List.mapM_cons, ih]
    simp [pydiv, hs]

theorem map_div_sum (l : List ℚ) (s : ℚ) : (l.map (fun x => x / s)).sum = l.sum / s := by
  induction l with
  | nil => simp
  | cons x t ih => simp [ih, add_div]

theorem normalize_zero (x : ℚ) (t : List ℚ) (h : (x :: t).sum = 0) :
    normalize (x :: t) = .error .zeroDivisionError := by
  show (x :: t).mapM (fun y => pydiv y ((x :: t).sum)) = _
  rw [List.mapM_cons]
  simp [pydiv, h]

theorem project_point_nums (a b c : Rt3) (rest : List Rt3) :
    project_point (.seq ((a :: b :: c :: rest).map .num)) =
      .ok (Rt3.ofRat (1/2) * (2 * b + c), SQRT3OVER2 * c) := rfl

/-- C2: `project_point` maps every barycentric triple `(a, b, c)` to the
Cartesian pair `(b + c/2, c·√3/2)`; in particular the corners `(1,0,0)`,
`(0,1,0)`, `(0,0,1)` project to `(0,0)`, `(1,0)` and `(1/2, √3/2)`. -/
theorem project_point_formula :
    (∀ a b c : Rt3,
      project_point (.seq [.num a, .num b, .num c]) = .ok (b + c / 2, c * sqrt3 / 2)) ∧
    project_point (.seq [.num 1, .num 0, .num 0]) = .ok (0, 0) ∧
    project_point (.seq [.num 0, .num 1, .num 0]) = .ok (1, 0) ∧
    project_point (.seq [.num 0, .num 0, .num 1]) = .ok ((1 : Rt3) / 2, sqrt3 / 2) := by
  have key : ∀ a b c : Rt3,
      project_point (.seq [.num a, .num b, .num c]) = .ok (b + c / 2, c * sqrt3 / 2) := by
    intro a b c
    obtain ⟨br, bs⟩ := b
    obtain ⟨cr, cs⟩ := c
    rw [show ([.num a, .num ⟨br, bs⟩, .num ⟨cr, cs⟩] : List PyVal) =
      (a :: (⟨br, bs⟩ : Rt3) :: (⟨cr, cs⟩ : Rt3) :: ([] : List Rt3)).map .num from rfl,
      project_point_nums]
    simp only [Rt3.add_def, Rt3.mul_def, Rt3.div_def, Rt3.inv_def, Rt3.ofNat_def, Rt3.ofRat_def,
      SQRT3OVER2, sqrt3, Except.ok.injEq, Prod.mk.injEq, Rt3.mk.injEq]
    norm_num
    refine ⟨⟨by ring, by ring⟩, by ring, by ring⟩
  refine ⟨key, ?_, ?_, ?_⟩ <;>
  · rw [key]
    simp only [Except.ok.injEq, Prod.mk.injEq]
    constructor <;>
    · simp only [sqrt3, Rt3.add_def, Rt3.div_def, Rt3.mul_def, Rt3.inv_def, Rt3.ofNat_def,
        Rt3.mk.injEq]
      norm_num

/-- C6: for a non-degenerate domain `a < b`, `colormapper` sends the domain
endpoints to the hex encoding of the gradient at `t = 0` and `t = 1`; for the
degenerate domain `b = a` every value maps to the `t = 0` color; and every
result is the hex encoding of some RGBA value. -/
theorem colormapper_endpoints :
    ∀ (a b : ℚ) (cmap : ℚ → Rgba) (rgb2hex : Rgba → String), a < b →
      colormapper a a b cmap rgb2hex = rgb2hex (cmap 0) ∧
      colormapper b a b cmap rgb2hex = rgb2hex (cmap 1) ∧
      (∀ x : ℚ, colormapper x a a cmap rgb2hex = rgb2hex (cmap 0)) ∧
      (∀ x : ℚ, ∃ rgba : Rgba, colormapper x a b cmap rgb2hex = rgb2hex rgba) := by
  intro a b cmap hexf hab
  have hne : b - a ≠ 0 := sub_ne_zero.mpr (ne_of_gt hab)
  refine ⟨?_, ?_, ?_, ?_⟩
  · simp [colormapper, hne]
  · simp [colormapper, hne, div_self hne]
  · intro x; simp [colormapper]
  · intro x
    by_cases h : b - a = 0
    · exact ⟨cmap 0, by simp [colormapper, h]⟩
    · exact ⟨cmap ((x - a) / (b - a)), by simp [colormapper, h]⟩

/-- Witness for C6 at the concrete domain `[0, 1]` with a concrete colormap
and hex encoder. -/
theorem colormapper_endpoints_witness :
    colormapper 0 0 1 (fun t => (t, t, t, t)) (fun r => toString r.1) =
      (fun r : Rgba => toString r.1) ((fun t : ℚ => (t, t, t, t)) 0) ∧
    colormapper 1 0 1 (fun t => (t, t, t, t)) (fun r => toString r.1) =
      (fun r : Rgba => toString r.1) ((fun t : ℚ => (t, t, t, t)) 1) :=
  ⟨(colormapper_endpoints 0 1 (fun t => (t, t, t, t)) (fun r => toString r.1) (by norm_num)).1,
   (colormapper_endpoints 0 1 (fun t => (t, t, t, t)) (fun r => toString r.1) (by norm_num)).2.1⟩

/-- C8 counterexample: a pair raises an `IndexError`, not a `TypeError`, in
both `project_point` and `project`; and a 4-tuple of numbers does not raise at
all — both functions return a Cartesian result, ignoring the extra component. -/
theorem project_arity_counterexample :
    project_point (.seq [.num 0, .num 0]) = .error .indexError ∧
    project_point (.seq [.num 0, .num 0]) ≠ .error .typeError ∧
    project (.seq [.num 0, .num 0]) = .error .indexError ∧
    project_point (.seq [.num 0, .num 0, .num 0, .num 0]) = .ok (0, 0) ∧
    project (.seq [.num 0, .num 0, .num 0, .num 0]) = .ok (.single (0, 0)) := by
  have h4 : project_point (.seq [.num 0, .num 0, .num 0, .num 0]) = .ok (0, 0) := by
    rw [show ([.num 0, .num 0, .num 0, .num 0] : List PyVal) =
      ((0 : Rt3) :: (0 : Rt3) :: (0 : Rt3) :: [(0 : Rt3)]).map .num from rfl, project_point_nums]
    simp only [Except.ok.injEq, Prod.mk.injEq, Rt3.add_def, Rt3.mul_def, Rt3.ofNat_def,
      Rt3.ofRat_def, SQRT3OVER2, Rt3.mk.injEq]
    norm_num
  refine ⟨rfl, ?_, rfl, h4, ?_⟩
  · show (Except.error PyErr.indexError : Except PyErr Pt) ≠ .error .typeError
    simp
  · have hp : project (.seq [.num 0, .num 0, .num 0, .num 0]) =
        Except.map ProjResult.single (project_point (.seq [.num 0, .num 0, .num 0, .num 0])) :=
      rfl
    rw [hp, h4]
    rfl

/-- C8 (amended): projection of a sequence of numbers with fewer than 3
components raises an `IndexError` propagated by `project_point`, and by
`project` as well when the sequence is non-empty (after `project` internally
recovers the `TypeError` of its mapping attempt); neither returns a Cartesian
result there.  Sequences of more than 3 numbers are accepted: the first three
components are used and the rest ignored. -/
theorem project_arity_amended :
    (∀ xs : List Rt3, xs.length < 3 →
      project_point (.seq (xs.map .num)) = .error .indexError ∧
      (xs ≠ [] → project (.seq (xs.map .num)) = .error .indexError)) ∧
    (∀ (a b c : Rt3) (rest : List Rt3),
      project_point (.seq ((a :: b :: c :: rest).map .num)) =
        .ok (Rt3.ofRat (1/2) * (2 * b + c), SQRT3OVER2 * c)) := by
  constructor
  · intro xs h
    rcases xs with _ | ⟨x, _ | ⟨y, _ | ⟨z, t⟩⟩⟩
    · exact ⟨rfl, fun hne => absurd rfl hne⟩
    · exact ⟨rfl, fun _ => rfl⟩
    · exact ⟨rfl, fun _ => rfl⟩
    · simp at h; omega
  · intro a b c rest
    rfl

/-- Witness for C8's amended theorem at the concrete singleton sequence `[5]`. -/
theorem project_arity_amended_witness :
    project_point (.seq [.num 5]) = .error .indexError ∧
    project (.seq [.num 5]) = .error .indexError := by
  have h := project_arity_amended.1 [5] (by simp)
  exact ⟨h.1, h.2 (List.cons_ne_nil 5 [])⟩

/-- C10 counterexample: the empty list has zero sum, yet `normalize` returns
it unchanged instead of failing with a division-by-zero error (the list
comprehension performs no division at all). -/
theorem normalize_empty_counterexample :
    normalize [] = .ok [] ∧ ([] : List ℚ).sum = 0 ∧
    normalize [] ≠ .error .zeroDivisionError := by
  refine ⟨rfl, rfl, ?_⟩
  show (Except.ok ([] : List ℚ) : Except PyErr (List ℚ)) ≠ .error .zeroDivisionError
  simp

/-- C10 (amended): `normalize` divides each element by the unguarded sum: for
nonzero sum it returns the same-length list of quotients summing exactly to 1;
for a non-empty zero-sum input it fails with a division-by-zero error (the
empty list returns empty); and that failure is reachable through the public
`plot_heatmap` with `steps = 0` and `boundary = True`, whose only lattice
triple is `(0, 0, 0)`. -/
theorem normalize_amended :
    (∀ xs : List ℚ, xs.sum ≠ 0 →
      normalize xs = .ok (xs.map (fun x => x / xs.sum)) ∧
      (xs.map (fun x => x / xs.sum)).length = xs.length ∧
      (xs.map (fun x => x / xs.sum)).sum = 1) ∧
    (∀ xs : List ℚ, xs ≠ [] → xs.sum = 0 → normalize xs = .error .zeroDivisionError) ∧
    simplex_points 0 true = [(0, 0, 0)] ∧
    (∀ func : List ℚ → ℚ, plot_heatmap_d func 0 true = .error .zeroDivisionError) := by
  refine ⟨?_, ?_, rfl, ?_⟩
  · intro xs hs
    refine ⟨mapM_pydiv_ok xs xs.sum hs, List.length_map xs _, ?_⟩
    rw [map_div_sum, div_self hs]
  · intro xs hne hsum
    match xs with
    | x :: t => exact normalize_zero x t hsum
  · intro func
    show (simplex_points 0 true).mapM _ = _
    rw [show simplex_points 0 true = [(0, 0, 0)] from rfl, List.mapM_cons]
    have hn : normalize [(0:ℚ), 0, 0] = .error .zeroDivisionError :=
      normalize_zero _ _ (by norm_num)
    simp [hn]

/-- Witness for C10's amended theorem at the concrete inputs `[1, 1]`
(nonzero sum) and `[1, -1]` (zero sum, non-empty). -/
theorem normalize_amended_witness :
    normalize [1, 1] = .ok [1/2, 1/2] ∧
    normalize [1, -1] = .error .zeroDivisionError := by
  have h1 := normalize_amended.1 [1, 1] (by norm_num)
  have h2 := normalize_amended.2.1 [1, -1] (by simp) (by norm_num)
  refine ⟨?_, h2⟩
  rw [h1.1]
  norm_num


theorem mem_pyRange {x a b : ℤ} : x ∈ pyRange a b ↔ a ≤ x ∧ x < b := by
  unfold pyRange
  rw [List.mem_map]
  constructor
  · rintro ⟨k, hk, rfl⟩
    rw [List.mem_range] at hk
    omega
  · rintro ⟨h1, h2⟩
    refine ⟨(x - a).toNat, ?_, ?_⟩
    · rw [List.mem_range]; omega
    · omega

theorem mem_simplex_core (steps start x1 x2 x3 : ℤ) (hstart : 0 ≤ start) :
    (x1, x2, x3) ∈ ((pyRange start (steps + (1 - start))).map (fun a =>
      (pyRange start (steps + (1 - start) - a)).map (fun v =>
        (a, v, steps - a - v)))).flatten ↔
    start ≤ x1 ∧ start ≤ x2 ∧ start ≤ steps - x1 - x2 ∧ x3 = steps - x1 - x2 := by
  rw [List.mem_flatten]
  constructor
  · rintro ⟨l, hl, hmem⟩
    obtain ⟨y1, hy1, rfl⟩ := List.mem_map.mp hl
    obtain ⟨y2, hy2, heq⟩ := List.mem_map.mp hmem
    rw [mem_pyRange] at hy1 hy2
    injection heq with e1 e23
    injection e23 with e2 e3
    subst e1
    subst e2
    subst e3
    omega
  · rintro ⟨h1, h2, h3, h4⟩
    subst h4
    refine ⟨_, List.mem_map.mpr ⟨x1, mem_pyRange.mpr ⟨h1, by omega⟩, rfl⟩, ?_⟩
    exact List.mem_map.mpr ⟨x2, mem_pyRange.mpr ⟨h2, by omega⟩, rfl⟩

theorem mem_simplex_points {steps : ℤ} {b : Bool} {t : ℤ × ℤ × ℤ} :
    t ∈ simplex_points steps b ↔
      (if b then 0 else 1) ≤ t.1 ∧ (if b then 0 else 1) ≤ t.2.1 ∧
      (if b then 0 else 1) ≤ steps - t.1 - t.2.1 ∧ t.2.2 = steps - t.1 - t.2.1 := by
  obtain ⟨x1, x2, x3⟩ := t
  exact mem_simplex_core steps (if b then 0 else 1) x1 x2 x3 (by rcases b with _ | _ <;> norm_num)

theorem pyRange_pairwise_lt (a b : ℤ) : (pyRange a b).Pairwise (· < ·) := by
  unfold pyRange
  rw [List.pairwise_map]
  apply List.Pairwise.imp ?_ (List.pairwise_lt_range _)
  intro x y h
  omega

/-- C4: every triple yielded by `simplex_points(steps, boundary)` for
non-negative `steps` sums exactly to `steps`, has non-negative components,
and has strictly positive components when `boundary = False`. -/
theorem simplex_points_sum_invariant :
    ∀ steps : ℤ, 0 ≤ steps → ∀ (b : Bool) (t : ℤ × ℤ × ℤ), t ∈ simplex_points steps b →
      t.1 + t.2.1 + t.2.2 = steps ∧
      0 ≤ t.1 ∧ 0 ≤ t.2.1 ∧ 0 ≤ t.2.2 ∧
      (b = false → 0 < t.1 ∧ 0 < t.2.1 ∧ 0 < t.2.2) := by
  intro steps _ b t ht
  rw [mem_simplex_points] at ht
  rcases b with _ | _
  · simp only [Bool.false_eq_true, if_false] at ht
    exact ⟨by omega, by omega, by omega, by omega, fun _ => ⟨by omega, by omega, by omega⟩⟩
  · simp only [if_true] at ht
    exact ⟨by omega, by omega, by omega, by omega, fun h => by simp at h⟩

/-- C5: `simplex_points` emits triples in strictly increasing lexicographic
order of `(x1, x2)` — `x1` ascending in the outer loop, `x2` ascending in the
inner loop — with `x3` derived as `steps - x1 - x2`.  (Determinism is
definitional: the embedding is a pure function of its arguments.) -/
theorem simplex_points_lex_order :
    ∀ (steps : ℤ) (b : Bool),
      (simplex_points steps b).Pairwise
        (fun p q => p.1 < q.1 ∨ (p.1 = q.1 ∧ p.2.1 < q.2.1)) ∧
      ∀ t ∈ simplex_points steps b, t.2.2 = steps - t.1 - t.2.1 := by
  intro steps b
  constructor
  · show (((pyRange _ _).map _).flatten).Pairwise _
    rw [List.pairwise_flatten]
    constructor
    · rintro l hl
      obtain ⟨y1, hy1, rfl⟩ := List.mem_map.mp hl
      rw [List.pairwise_map]
      apply List.Pairwise.imp ?_ (pyRange_pairwise_lt _ _)
      intro a c hac
      exact Or.inr ⟨rfl, hac⟩
    · rw [List.pairwise_map]
      apply List.Pairwise.imp ?_ (pyRange_pairwise_lt _ _)
      intro a c hac p hp q hq
      obtain ⟨pa, hpa, rfl⟩ := List.mem_map.mp hp
      obtain ⟨qa, hqa, rfl⟩ := List.mem_map.mp hq
      exact Or.inl hac
  · intro t ht
    rw [mem_simplex_points] at ht
    exact ht.2.2.2

/-- Witness for C4 at `steps = 3`, `boundary = False`, triple `(1, 1, 1)`. -/
theorem simplex_points_sum_invariant_witness :
    ((1 : ℤ), (1 : ℤ), (1 : ℤ)).1 + ((1 : ℤ), (1 : ℤ), (1 : ℤ)).2.1 +
      ((1 : ℤ), (1 : ℤ), (1 : ℤ)).2.2 = 3 ∧
    (0 : ℤ) ≤ ((1 : ℤ), (1 : ℤ), (1 : ℤ)).1 ∧
    (0 : ℤ) ≤ ((1 : ℤ), (1 : ℤ), (1 : ℤ)).2.1 ∧
    (0 : ℤ) ≤ ((1 : ℤ), (1 : ℤ), (1 : ℤ)).2.2 ∧
    (false = false → (0 : ℤ) < ((1 : ℤ), (1 : ℤ), (1 : ℤ)).1 ∧
      (0 : ℤ) < ((1 : ℤ), (1 : ℤ), (1 : ℤ)).2.1 ∧
      (0 : ℤ) < ((1 : ℤ), (1 : ℤ), (1 : ℤ)).2.2) :=
  simplex_points_sum_invariant 3 (by norm_num) false (1, 1, 1) (by decide)

/-- Witness for C5 at `steps = 2`, `boundary = True`, triple `(0, 1, 1)`. -/
theorem simplex_points_lex_order_witness :
    (simplex_points 2 true).Pairwise
      (fun p q => p.1 < q.1 ∨ (p.1 = q.1 ∧ p.2.1 < q.2.1)) ∧
    ((0 : ℤ), (1 : ℤ), (1 : ℤ)).2.2 = 2 - ((0 : ℤ), (1 : ℤ), (1 : ℤ)).1 -
      ((0 : ℤ), (1 : ℤ), (1 : ℤ)).2.1 :=
  ⟨(simplex_points_lex_order 2 true).1, (simplex_points_lex_order 2 true).2 (0, 1, 1) (by decide)⟩

theorem length_pyRange (a b : ℤ) : (pyRange a b).length = (b - a).toNat := by
  unfold pyRange
  rw [List.length_map, List.length_range]

theorem list_range_map_sum (n : ℕ) (f : ℕ → ℕ) :
    ((List.range n).map f).sum = ∑ k ∈ Finset.range n, f k := by
  induction n with
  | zero => simp
  | succ m ih =>
    rw [List.range_succ, List.map_append, List.sum_append, Finset.sum_range_succ, ih]
    simp

theorem two_mul_sum_range_sub (n : ℕ) : 2 * (∑ k ∈ Finset.range n, (n - k)) = n * (n + 1) := by
  have h1 : ∑ k ∈ Finset.range n, (n - k) = ∑ k ∈ Finset.range n, (k + 1) := by
    rw [← Finset.sum_range_reflect]
    apply Finset.sum_congr rfl
    intro x hx
    rw [Finset.mem_range] at hx
    omega
  have h2 : ∑ k ∈ Finset.range (n + 1), k = ∑ k ∈ Finset.range n, (k + 1) := by
    rw [Finset.sum_range_succ']
    simp
  have h3 := Finset.sum_range_id_mul_two (n + 1)
  rw [h1, ← h2]
  rw [Nat.add_sub_cancel] at h3
  calc 2 * ∑ k ∈ Finset.range (n + 1), k = (∑ k ∈ Finset.range (n + 1), k) * 2 := by
        rw [Nat.mul_comm]
    _ = (n + 1) * n := h3
    _ = n * (n + 1) := Nat.mul_comm _ _

theorem simplex_points_length_boundary (N : ℕ) :
    (simplex_points (N : ℤ) true).length = (N + 1) * (N + 2) / 2 := by
  have hrw : simplex_points (N : ℤ) true = ((pyRange 0 ((N : ℤ) + 1)).map (fun a =>
      (pyRange 0 ((N : ℤ) + 1 - a)).map (fun v => (a, v, (N : ℤ) - a - v)))).flatten := by
    simp [simplex_points]
  rw [hrw, List.length_flatten, List.map_map]
  have hinner : ∀ a ∈ pyRange 0 ((N : ℤ) + 1),
      (List.length ∘ fun a => (pyRange 0 ((N : ℤ) + 1 - a)).map
        (fun v => (a, v, (N : ℤ) - a - v))) a = (fun a => ((N : ℤ) + 1 - a).toNat) a := by
    intro a ha
    simp only [Function.comp_apply, List.length_map, length_pyRange, sub_zero]
  rw [List.map_congr_left hinner]
  unfold pyRange
  rw [List.map_map]
  have hcast : (((N : ℤ) + 1 - 0)).toNat = N + 1 := by omega
  rw [hcast]
  have hsum : ((List.range (N + 1)).map ((fun a => ((N : ℤ) + 1 - a).toNat) ∘ fun k : ℕ =>
      0 + (k : ℤ))).sum = ∑ k ∈ Finset.range (N + 1), (N + 1 - k) := by
    rw [list_range_map_sum]
    apply Finset.sum_congr rfl
    intro x hx
    rw [Finset.mem_range] at hx
    simp only [Function.comp_apply]
    omega
  rw [hsum]
  have h2 : 2 * (∑ k ∈ Finset.range (N + 1), (N + 1 - k)) = (N + 1) * (N + 2) :=
    two_mul_sum_range_sub (N + 1)
  have h3 : (N + 1) * (N + 2) = (∑ k ∈ Finset.range (N + 1), (N + 1 - k)) * 2 := by omega
  exact (Nat.div_eq_of_eq_mul_left (by norm_num) h3).symm

theorem simplex_points_length_interior (N : ℕ) (hN : 2 ≤ N) :
    (simplex_points (N : ℤ) false).length = (N - 1) * (N - 2) / 2 := by
  have hrw : simplex_points (N : ℤ) false = ((pyRange 1 (N : ℤ)).map (fun a =>
      (pyRange 1 ((N : ℤ) - a)).map (fun v => (a, v, (N : ℤ) - a - v)))).flatten := by
    simp [simplex_points]
  rw [hrw, List.length_flatten, List.map_map]
  have hinner : ∀ a ∈ pyRange 1 (N : ℤ),
      (List.length ∘ fun a => (pyRange 1 ((N : ℤ) - a)).map
        (fun v => (a, v, (N : ℤ) - a - v))) a = (fun a => ((N : ℤ) - a - 1).toNat) a := by
    intro a ha
    simp only [Function.comp_apply, List.length_map, length_pyRange]
  rw [List.map_congr_left hinner]
  unfold pyRange
  rw [List.map_map]
  have hcast : ((N : ℤ) - 1).toNat = N - 1 := by omega
  rw [hcast]
  have hsum : ((List.range (N - 1)).map ((fun a => ((N : ℤ) - a - 1).toNat) ∘ fun k : ℕ =>
      1 + (k : ℤ))).sum = ∑ k ∈ Finset.range (N - 1), (N - 1 - 1 - k) := by
    rw [list_range_map_sum]
    apply Finset.sum_congr rfl
    intro x hx
    rw [Finset.mem_range] at hx
    simp only [Function.comp_apply]
    omega
  rw [hsum]
  have hrefl : ∑ k ∈ Finset.range (N - 1), (N - 1 - 1 - k) = ∑ k ∈ Finset.range (N - 1), k :=
    Finset.sum_range_reflect (fun j => j) (N - 1)
  rw [hrefl]
  have hg : (∑ k ∈ Finset.range (N - 1), k) * 2 = (N - 1) * (N - 2) :=
    Finset.sum_range_id_mul_two (N - 1)
  exact (Nat.div_eq_of_eq_mul_left (by norm_num) hg.symm).symm

/-- C3: `simplex_points(steps = N, boundary = True)` yields exactly
`(N+1)(N+2)/2` triples; with `boundary = False` it yields `(N-1)(N-2)/2`
triples for `N ≥ 2` and nothing for `N = 0` or `N = 1`. -/
theorem simplex_points_count :
    ∀ N : ℕ,
      (simplex_points (N : ℤ) true).length = (N + 1) * (N + 2) / 2 ∧
      (2 ≤ N → (simplex_points (N : ℤ) false).length = (N - 1) * (N - 2) / 2) ∧
      simplex_points 0 false = [] ∧ simplex_points 1 false = [] :=
  fun N => ⟨simplex_points_length_boundary N,
    fun hN => simplex_points_length_interior N hN, rfl, rfl⟩

/-- Witness for C3 at `N = 4`: 15 triples with the boundary, 3 without. -/
theorem simplex_points_count_witness :
    (simplex_points ((4 : ℕ) : ℤ) true).length = (4 + 1) * (4 + 2) / 2 ∧
    (simplex_points ((4 : ℕ) : ℤ) false).length = (4 - 1) * (4 - 2) / 2 :=
  ⟨(simplex_points_count 4).1, (simplex_points_count 4).2.1 (by norm_num)⟩

/-- C1: for every non-negative `steps = S`, `hex_coordinates` returns a
polygon with exactly 4 vertices at each of the three corners `(0,0)`, `(S,0)`,
`(0,S)`; exactly 6 vertices at every interior lattice point (`0 < i`, `0 < j`,
`i + j < S`); and exactly 5 vertices at every non-corner boundary point, the
corner overrides taking precedence over the edge overrides. -/
theorem hex_coordinates_vertex_counts :
    ∀ S : ℤ, 0 ≤ S →
      (hex_coordinates 0 0 S).length = 4 ∧
      (hex_coordinates S 0 S).length = 4 ∧
      (hex_coordinates 0 S S).length = 4 ∧
      (∀ i j : ℤ, 0 < i → 0 < j → i + j < S → (hex_coordinates i j S).length = 6) ∧
      (∀ j : ℤ, 0 < j → j < S → (hex_coordinates 0 j S).length = 5) ∧
      (∀ i : ℤ, 0 < i → i < S → (hex_coordinates i 0 S).length = 5) ∧
      (∀ i j : ℤ, 0 < i → 0 < j → i + j = S → (hex_coordinates i j S).length = 5) := by
  intro S hS
  refine ⟨?_, ?_, ?_, ?_, ?_, ?_, ?_⟩
  · simp only [hex_coordinates]
    split_ifs <;> first | rfl | omega | simp_all
  · simp only [hex_coordinates]
    split_ifs <;> first | rfl | omega | simp_all
  · simp only [hex_coordinates]
    split_ifs <;> first | rfl | omega | simp_all
  · intro i j hi hj hij
    simp only [hex_coordinates]
    split_ifs <;> first | rfl | omega
  · intro j hj hjS
    simp only [hex_coordinates]
    split_ifs <;> first | rfl | omega | simp_all
  · intro i hi hiS
    simp only [hex_coordinates]
    split_ifs <;> first | rfl | omega | simp_all
  · intro i j hi hj hij
    simp only [hex_coordinates]
    split_ifs <;> first | rfl | omega

/-- Witness for C1 at `S = 3` with interior point `(1,1)` and one point on
each of the three edges. -/
theorem hex_coordinates_vertex_counts_witness :
    (hex_coordinates 0 0 3).length = 4 ∧ (hex_coordinates 3 0 3).length = 4 ∧
    (hex_coordinates 0 3 3).length = 4 ∧ (hex_coordinates 1 1 3).length = 6 ∧
    (hex_coordinates 0 1 3).length = 5 ∧ (hex_coordinates 1 0 3).length = 5 ∧
    (hex_coordinates 1 2 3).length = 5 := by
  have h := hex_coordinates_vertex_counts 3 (by norm_num)
  exact ⟨h.1, h.2.1, h.2.2.1, h.2.2.2.1 1 1 (by norm_num) (by norm_num) (by norm_num),
    h.2.2.2.2.1 1 (by norm_num) (by norm_num), h.2.2.2.2.2.1 1 (by norm_num) (by norm_num),
    h.2.2.2.2.2.2 1 2 (by norm_num) (by norm_num) (by norm_num)⟩

theorem foldl_min_le (t : List ℚ) (a : ℚ) :
    t.foldl min a ≤ a ∧ ∀ x ∈ t, t.foldl min a ≤ x := by
  induction t generalizing a with
  | nil => exact ⟨le_refl a, by simp⟩
  | cons b l ih =>
    simp only [List.foldl_cons]
    have h := ih (min a b)
    refine ⟨le_trans h.1 (min_le_left a b), ?_⟩
    intro x hx
    rcases List.mem_cons.mp hx with rfl | hx
    · exact le_trans h.1 (min_le_right a x)
    · exact h.2 x hx

theorem foldl_min_mem (t : List ℚ) (a : ℚ) : t.foldl min a = a ∨ t.foldl min a ∈ t := by
  induction t generalizing a with
  | nil => exact .inl rfl
  | cons b l ih =>
    simp only [List.foldl_cons]
    rcases ih (min a b) with h | h
    · rcases min_choice a b with h2 | h2
      · exact .inl (h.trans h2)
      · exact .inr (by rw [h, h2]; exact List.mem_cons_self b l)
    · exact .inr (List.mem_cons_of_mem b h)

theorem foldl_max_le (t : List ℚ) (a : ℚ) :
    a ≤ t.foldl max a ∧ ∀ x ∈ t, x ≤ t.foldl max a := by
  induction t generalizing a with
  | nil => exact ⟨le_refl a, by simp⟩
  | cons b l ih =>
    simp only [List.foldl_cons]
    have h := ih (max a b)
    refine ⟨le_trans (le_max_left a b) h.1, ?_⟩
    intro x hx
    rcases List.mem_cons.mp hx with rfl | hx
    · exact le_trans (le_max_right a x) h.1
    · exact h.2 x hx

theorem foldl_max_mem (t : List ℚ) (a : ℚ) : t.foldl max a = a ∨ t.foldl max a ∈ t := by
  induction t generalizing a with
  | nil => exact .inl rfl
  | cons b l ih =>
    simp only [List.foldl_cons]
    rcases ih (max a b) with h | h
    · rcases max_choice a b with h2 | h2
      · exact .inl (h.trans h2)
      · exact .inr (by rw [h, h2]; exact List.mem_cons_self b l)
    · exact .inr (List.mem_cons_of_mem b h)

/-- C7: `heatmap` fails with a value error when the mapping `d` is empty and
`min_max_scale` is not supplied; with an explicit `min_max_scale` the color
domain is taken from it (no error even for empty `d`); otherwise the domain is
the minimum and maximum of the values of `d`. -/
theorem heatmap_domain_spec :
    heatmap_domain [] none = .error .valueError ∧
    (∀ (d : List ((ℤ × ℤ) × ℚ)) (mms : ℚ × ℚ), heatmap_domain d (some mms) = .ok mms) ∧
    (∀ d : List ((ℤ × ℤ) × ℚ), d ≠ [] → ∃ a b : ℚ,
      heatmap_domain d none = .ok (a, b) ∧
      a ∈ d.map (fun kv => kv.2) ∧ b ∈ d.map (fun kv => kv.2) ∧
      ∀ x ∈ d.map (fun kv => kv.2), a ≤ x ∧ x ≤ b) := by
  refine ⟨rfl, ?_, ?_⟩
  · intro d mms
    obtain ⟨ma, mb⟩ := mms
    rfl
  · intro d hd
    match d, hd with
    | kv :: rest, _ =>
      have hdom : heatmap_domain (kv :: rest) none =
          .ok ((rest.map (fun kv => kv.2)).foldl min kv.2,
               (rest.map (fun kv => kv.2)).foldl max kv.2) := rfl
      refine ⟨(rest.map (fun kv => kv.2)).foldl min kv.2,
              (rest.map (fun kv => kv.2)).foldl max kv.2, hdom, ?_, ?_, ?_⟩
      · rcases foldl_min_mem (rest.map (fun kv => kv.2)) kv.2 with h | h
        · rw [h]; exact List.mem_cons_self _ _
        · exact List.mem_cons_of_mem _ h
      · rcases foldl_max_mem (rest.map (fun kv => kv.2)) kv.2 with h | h
        · rw [h]; exact List.mem_cons_self _ _
        · exact List.mem_cons_of_mem _ h
      · intro x hx
        rcases List.mem_cons.mp hx with rfl | hx
        · exact ⟨(foldl_min_le _ _).1, (foldl_max_le _ _).1⟩
        · exact ⟨(foldl_min_le _ _).2 x hx, (foldl_max_le _ _).2 x hx⟩

/-- Witness for C7 at the concrete singleton mapping sending `(0,0)` to `5`. -/
theorem heatmap_domain_spec_witness :
    ∃ a b : ℚ, heatmap_domain [((0, 0), (5 : ℚ))] none = .ok (a, b) ∧
      a ∈ ([((0, 0), (5 : ℚ))] : List ((ℤ × ℤ) × ℚ)).map (fun kv => kv.2) ∧
      b ∈ ([((0, 0), (5 : ℚ))] : List ((ℤ × ℤ) × ℚ)).map (fun kv => kv.2) ∧
      ∀ x ∈ ([((0, 0), (5 : ℚ))] : List ((ℤ × ℤ) × ℚ)).map (fun kv => kv.2),
        a ≤ x ∧ x ≤ b :=
  heatmap_domain_spec.2.2 [((0, 0), 5)] (by simp)

theorem mul_sqrt3_div_two (x : Rt3) : x * sqrt3 / 2 = x * SQRT3OVER2 := by
  obtain ⟨xr, xs⟩ := x
  simp only [sqrt3, SQRT3OVER2, Rt3.div_def, Rt3.inv_def, Rt3.mul_def, Rt3.ofNat_def,
    Rt3.mk.injEq]
  norm_num

/-- C9: `triangle_coordinates` returns exactly the three closed-form vertices
in both the standard and the alt variant, and the union of the two vertex sets
is the four corners of the lattice cell `(i, j)` — the rhombus spanned at
`i_j_to_x_y i j` by the offsets `(1, 0)` and `(1/2, √3/2)` — so the two
triangles tile the cell. -/
theorem triangle_coordinates_spec :
    ∀ i j : ℤ,
      triangle_coordinates i j false =
        [(Rt3.ofRat ((i:ℚ)/2 + j), Rt3.ofRat i * sqrt3 / 2),
         (Rt3.ofRat ((i:ℚ)/2 + j + 1), Rt3.ofRat i * sqrt3 / 2),
         (Rt3.ofRat ((i:ℚ)/2 + j + 1/2), Rt3.ofRat ((i:ℚ) + 1) * sqrt3 / 2)] ∧
      triangle_coordinates i j true =
        [(Rt3.ofRat ((i:ℚ)/2 + j + 1), Rt3.ofRat i * sqrt3 / 2),
         (Rt3.ofRat ((i:ℚ)/2 + j + 3/2), Rt3.ofRat ((i:ℚ) + 1) * sqrt3 / 2),
         (Rt3.ofRat ((i:ℚ)/2 + j + 1/2), Rt3.ofRat ((i:ℚ) + 1) * sqrt3 / 2)] ∧
      (triangle_coordinates i j false).toFinset ∪ (triangle_coordinates i j true).toFinset =
        {i_j_to_x_y i j,
         i_j_to_x_y i j + ((Rt3.ofRat 1, Rt3.ofRat 0) : Pt),
         i_j_to_x_y i j + ((Rt3.ofRat (1/2), sqrt3 / 2) : Pt),
         i_j_to_x_y i j + ((Rt3.ofRat (3/2), sqrt3 / 2) : Pt)} := by
  intro i j
  have hy0 : Rt3.ofRat (i:ℚ) * sqrt3 / 2 = Rt3.ofRat i * SQRT3OVER2 := mul_sqrt3_div_two _
  have hy1 : Rt3.ofRat ((i:ℚ) + 1) * sqrt3 / 2 = Rt3.ofRat ((i:ℚ) + 1) * SQRT3OVER2 :=
    mul_sqrt3_div_two _
  have c1 : triangle_coordinates i j false =
      [(Rt3.ofRat ((i:ℚ)/2 + j), Rt3.ofRat i * sqrt3 / 2),
       (Rt3.ofRat ((i:ℚ)/2 + j + 1), Rt3.ofRat i * sqrt3 / 2),
       (Rt3.ofRat ((i:ℚ)/2 + j + 1/2), Rt3.ofRat ((i:ℚ) + 1) * sqrt3 / 2)] := by
    rw [hy0, hy1]; rfl
  have c2 : triangle_coordinates i j true =
      [(Rt3.ofRat ((i:ℚ)/2 + j + 1), Rt3.ofRat i * sqrt3 / 2),
       (Rt3.ofRat ((i:ℚ)/2 + j + 3/2), Rt3.ofRat ((i:ℚ) + 1) * sqrt3 / 2),
       (Rt3.ofRat ((i:ℚ)/2 + j + 1/2), Rt3.ofRat ((i:ℚ) + 1) * sqrt3 / 2)] := by
    rw [hy0, hy1]; rfl
  refine ⟨c1, c2, ?_⟩
  have hA : i_j_to_x_y i j = (Rt3.ofRat ((i:ℚ)/2 + j), Rt3.ofRat i * SQRT3OVER2) := by
    simp only [i_j_to_x_y, Prod.mk.injEq, Rt3.mul_def, Rt3.ofRat_def, SQRT3OVER2, Rt3.mk.injEq]
    norm_num
    ring
  have hB : i_j_to_x_y i j + ((Rt3.ofRat 1, Rt3.ofRat 0) : Pt) =
      (Rt3.ofRat ((i:ℚ)/2 + j + 1), Rt3.ofRat i * SQRT3OVER2) := by
    simp only [i_j_to_x_y, Prod.mk_add_mk, Prod.mk.injEq, Rt3.add_def, Rt3.mul_def,
      Rt3.ofRat_def, SQRT3OVER2, Rt3.mk.injEq]
    norm_num
    ring
  have hC : i_j_to_x_y i j + ((Rt3.ofRat (1/2), sqrt3 / 2) : Pt) =
      (Rt3.ofRat ((i:ℚ)/2 + j + 1/2), Rt3.ofRat ((i:ℚ) + 1) * SQRT3OVER2) := by
    simp only [i_j_to_x_y, Prod.mk_add_mk, Prod.mk.injEq, sqrt3, SQRT3OVER2, Rt3.add_def,
      Rt3.mul_def, Rt3.div_def, Rt3.inv_def, Rt3.ofNat_def, Rt3.ofRat_def, Rt3.mk.injEq]
    norm_num
    ring
  have hD : i_j_to_x_y i j + ((Rt3.ofRat (3/2), sqrt3 / 2) : Pt) =
      (Rt3.ofRat ((i:ℚ)/2 + j + 3/2), Rt3.ofRat ((i:ℚ) + 1) * SQRT3OVER2) := by
    simp only [i_j_to_x_y, Prod.mk_add_mk, Prod.mk.injEq, sqrt3, SQRT3OVER2, Rt3.add_def,
      Rt3.mul_def, Rt3.div_def, Rt3.inv_def, Rt3.ofNat_def, Rt3.ofRat_def, Rt3.mk.injEq]
    norm_num
    ring
  rw [c1, c2, hB, hC, hD, hA, hy0, hy1]
  ext p
  simp only [List.toFinset_cons, List.toFinset_nil, insert_emptyc_eq, Finset.mem_union,
    Finset.mem_insert, Finset.mem_singleton]
  tauto

end Ternary
